import Mathlib

/-!
A verification development for the SimpleSMBSpider program
(src/simplesmdspider.py): a credential sweep over SMB hosts that mirrors
every readable share into a local output tree of the shape
output/<host>/<share>/... .

The Python source is embedded shallowly.  Remote interactions (connect,
login, listShares, listPath, getFile) become explicit oracle functions;
console prints and filesystem mutations become an explicit event trace;
Python's unbounded call recursion in spider_files is modelled with a fuel
parameter, fuel exhaustion standing for the RecursionError the interpreter
raises, which - like any other exception escaping the per-share loop - is
caught by the blanket handler of spider_smb_shares.
-/

namespace SmbSpider

/-- Strings are modelled as lists of characters. -/
abbrev Str := List Char

/-- Two-argument posixpath.join exactly as CPython implements it: a second
argument beginning with the separator discards the first one, otherwise the
two pieces are glued with a single separator unless the first piece is
empty or already ends in one. -/
def posixJoin (a b : Str) : Str :=
  if b.head? = some '/' then b
  else if a = [] ∨ a.getLast? = some '/' then a ++ b
  else a ++ '/' :: b

/-- Python str.replace of every backslash by a forward slash. -/
def replaceBackslash (s : Str) : Str :=
  s.map fun c => if c = '\\' then '/' else c

/-- Python str.lstrip of leading backslashes. -/
def lstripBackslash (s : Str) : Str :=
  s.dropWhile fun c => c == '\\'

/-- posixpath.dirname: everything up to the last separator, with trailing
separators stripped unless the result consists of separators only. -/
def dirname (p : Str) : Str :=
  let head := (p.reverse.dropWhile fun c => c != '/').reverse
  if head ≠ [] ∧ head.any (fun c => c != '/') then
    (head.reverse.dropWhile fun c => c == '/').reverse
  else head

/-- Source line 91: os.path.join(remote_path, filename).replace("\\", "/"). -/
def full_remote_path (remote_path filename : Str) : Str :=
  replaceBackslash (posixJoin remote_path filename)

/-- Source line 92:
os.path.join(local_base_path, full_remote_path.lstrip(backslash)). -/
def local_path_of (local_base remote_path filename : Str) : Str :=
  posixJoin local_base (lstripBackslash (full_remote_path remote_path filename))

/-- Source line 65: host_directory = os.path.join("output", host). -/
def host_directory (host : Str) : Str :=
  posixJoin ("output".data) host

/-- Source line 71: share_directory = os.path.join(host_directory, share). -/
def share_directory (host share : Str) : Str :=
  posixJoin (host_directory host) share

/-- Observable behaviour of one run: the remote SMB calls made, the
filesystem mutations performed, and the console messages printed. -/
inductive Event where
  | tryMsg : Str → Str → Event
  | connect : Event
  | login : Event
  | listSharesOk : Event
  | listSharesErr : Event
  | noShares : Event
  | shareMsg : Str → Event
  | mkdirs : Str → Event
  | listOk : Str → Event
  | listErr : Str → Event
  | downloadOk : Str → Str → Event
  | downloadErr : Str → Event
  | logoff : Event
  | connError : Event
deriving DecidableEq

/-- One remote directory entry as returned by listPath: its long name and
whether it is a directory. -/
structure Entry where
  longname : Str
  is_directory : Bool
deriving DecidableEq

/-- list_shares (source lines 9-19): on success the share names are the
reported netnames each with its final character removed (the Python slice
[:-1]); any exception is printed and yields the empty list. -/
def list_shares (sharesRes : Except Unit (List Str)) : List Event × List Str :=
  match sharesRes with
  | Except.ok raw => ([Event.listSharesOk], raw.map List.dropLast)
  | Except.error _ => ([Event.listSharesErr], [])

/-- list_files (source lines 21-31): listPath on the base path; any
exception is printed and yields the empty list, so a listing failure is
confined to that directory. -/
def list_files (listing : Str → Except Unit (List Entry)) (base_path : Str) :
    List Event × List Entry :=
  match listing base_path with
  | Except.ok fs => ([Event.listOk base_path], fs)
  | Except.error _ => ([Event.listErr base_path], [])

/-- download_file (source lines 33-46): create the parent directory of the
local path, then stream the remote file; success prints a download line,
any exception is printed as a failure and the loop goes on. -/
def download_file (getFileOk : Str → Bool) (remote_path local_path : Str) :
    List Event :=
  Event.mkdirs (dirname local_path) ::
    (if getFileOk remote_path then [Event.downloadOk remote_path local_path]
     else [Event.downloadErr remote_path])

/-- The body of the for-loop of spider_files (source lines 86-100),
abstracted over the recursive call: skip the synthetic "." and ".." names,
compute the full remote path and the local path, then either create the
local directory and recurse (directories) or download (files).  The Bool
is false when fuel ran out somewhere below, i.e. when a RecursionError
escaped this frame. -/
def spiderEntries (recurse : Str → List Event × Bool) (getFileOk : Str → Bool)
    (remote_path local_base : Str) : List Entry → List Event × Bool
  | [] => ([], true)
  | e :: rest =>
    if e.longname = ['.'] ∨ e.longname = ['.', '.'] then
      spiderEntries recurse getFileOk remote_path local_base rest
    else
      let full := full_remote_path remote_path e.longname
      let lp := local_path_of local_base remote_path e.longname
      if e.is_directory then
        let r := recurse (full ++ ['\\'])
        if r.2 then
          let r2 := spiderEntries recurse getFileOk remote_path local_base rest
          (Event.mkdirs lp :: (r.1 ++ r2.1), r2.2)
        else (Event.mkdirs lp :: r.1, false)
      else
        let r2 := spiderEntries recurse getFileOk remote_path local_base rest
        (download_file getFileOk full lp ++ r2.1, r2.2)

/-- spider_files (source lines 81-100): list the current base path and walk
the entries, recursing into directories with the full remote path plus a
trailing backslash while the local base stays fixed.  fuel bounds the
recursion depth; at fuel zero the call raises (flag false), modelling
CPython's recursion limit. -/
def spider_files (listing : Str → Except Unit (List Entry))
    (getFileOk : Str → Bool) : Nat → Str → Str → List Event × Bool
  | 0, _, _ => ([], false)
  | fuel + 1, remote_path, local_base =>
    let p := list_files listing remote_path
    let r := spiderEntries (fun rp2 => spider_files listing getFileOk fuel rp2 local_base)
      getFileOk remote_path local_base p.2
    (p.1 ++ r.1, r.2)

/-- The per-share loop of spider_smb_shares (source lines 69-75): print the
share header, create the share directory, spider from the empty remote path.
The Bool is false when an exception (modelled: fuel exhaustion) escaped the
loop, in which case the remaining shares are not visited. -/
def spiderShares (listing : Str → Str → Except Unit (List Entry))
    (getFileOk : Str → Str → Bool) (fuel : Nat) (host_dir : Str) :
    List Str → List Event × Bool
  | [] => ([], true)
  | s :: rest =>
    let sd := posixJoin host_dir s
    let r := spider_files (listing s) (getFileOk s) fuel [] sd
    if r.2 then
      let r2 := spiderShares listing getFileOk fuel host_dir rest
      (Event.shareMsg s :: Event.mkdirs sd :: (r.1 ++ r2.1), r2.2)
    else (Event.shareMsg s :: Event.mkdirs sd :: r.1, false)

/-- spider_smb_shares (source lines 48-79): connect, login, list shares;
with no shares print the no-shares message and return (without logging
off); otherwise create the host directory, spider every share and log off,
unless an exception escaped the loop, in which case the blanket handler
prints the connection error and the session is never logged off.  A failed
connect or login raises into the same blanket handler. -/
def spider_smb_shares (conn_ok login_ok : Bool)
    (sharesRes : Except Unit (List Str))
    (listing : Str → Str → Except Unit (List Entry))
    (getFileOk : Str → Str → Bool) (fuel : Nat)
    (host _user _pass : Str) : List Event :=
  if conn_ok then
    if login_ok then
      let p := list_shares sharesRes
      if p.2 = [] then Event.connect :: Event.login :: (p.1 ++ [Event.noShares])
      else
        let hd := host_directory host
        let r := spiderShares listing getFileOk fuel hd p.2
        Event.connect :: Event.login ::
          (p.1 ++ Event.mkdirs hd :: (r.1 ++
            (if r.2 then [Event.logoff] else [Event.connError])))
    else [Event.connect, Event.connError]
  else [Event.connError]

/-- The remote world one credential triple faces: whether the connection and
the login succeed, the result of listShares, and per-share listing and
download oracles. -/
structure TripleCfg where
  conn_ok : Bool
  login_ok : Bool
  sharesRes : Except Unit (List Str)
  listing : Str → Str → Except Unit (List Entry)
  getFileOk : Str → Str → Bool

/-- The trace one credential triple produces. -/
def tripleTrace (O : Str × Str × Str → TripleCfg) (fuel : Nat)
    (t : Str × Str × Str) : List Event :=
  spider_smb_shares (O t).conn_ok (O t).login_ok (O t).sharesRes
    (O t).listing (O t).getFileOk fuel t.1 t.2.1 t.2.2

/-- itertools.product(hosts, usernames, passwords) (source line 124): hosts
outermost, usernames in the middle, passwords innermost. -/
def credentialTriples (hosts users pws : List Str) : List (Str × Str × Str) :=
  hosts.flatMap fun h => users.flatMap fun u => pws.map fun p => (h, u, p)

/-- The body of main's sweep loop (source lines 124-126) over an arbitrary
list of triples: print the trying-message, run spider_smb_shares, go on. -/
def sweepFrom (O : Str × Str × Str → TripleCfg) (fuel : Nat) :
    List (Str × Str × Str) → List Event
  | [] => []
  | t :: rest =>
    Event.tryMsg t.1 t.2.1 :: (tripleTrace O fuel t ++ sweepFrom O fuel rest)

/-- main (source lines 102-126): sweep the full Cartesian product. -/
def mainSweep (O : Str × Str × Str → TripleCfg) (fuel : Nat)
    (hosts users pws : List Str) : List Event :=
  sweepFrom O fuel (credentialTriples hosts users pws)

/-! ## Filtering of the synthetic "." and ".." entries (C9) -/

/-- An entry whose long name is not one of the synthetic self / parent
links. -/
def cleanEntry (e : Entry) : Bool :=
  !(e.longname == ['.'] || e.longname == ['.', '.'])

lemma spiderEntries_filter (recurse : Str → List Event × Bool)
    (getFileOk : Str → Bool) (rp lb : Str) :
    ∀ es : List Entry,
      spiderEntries recurse getFileOk rp lb (es.filter cleanEntry) =
        spiderEntries recurse getFileOk rp lb es := by
  intro es
  induction es with
  | nil => rfl
  | cons e rest ih =>
    by_cases h : e.longname = ['.'] ∨ e.longname = ['.', '.']
    · have hc : cleanEntry e = false := by
        rcases h with h | h <;> simp [cleanEntry, h]
      rw [List.filter_cons_of_neg (by simp [hc])]
      rw [ih]
      simp [spiderEntries, h]
    · have hc : cleanEntry e = true := by
        simp only [cleanEntry, Bool.not_eq_true', Bool.or_eq_false_iff,
          beq_eq_false_iff_ne, ne_eq]
        exact ⟨fun h1 => h (Or.inl h1), fun h2 => h (Or.inr h2)⟩
      rw [List.filter_cons_of_pos hc]
      simp only [spiderEntries, if_neg h, ih]

lemma list_files_filter (listing : Str → Except Unit (List Entry)) (p : Str) :
    (list_files (fun q => Except.map (List.filter cleanEntry) (listing q)) p).1 =
      (list_files listing p).1 ∧
    (list_files (fun q => Except.map (List.filter cleanEntry) (listing q)) p).2 =
      ((list_files listing p).2).filter cleanEntry := by
  cases h : listing p <;> simp [list_files, h, Except.map]

/-- C9: on every directory listing processed anywhere in the traversal the
two synthetic entries named "." and ".." are filtered out before any
recursion or download: spidering a server behaves exactly as spidering the
same server with those entries already removed from every listing, so
neither synthetic entry is ever recursed into or downloaded. -/
theorem c9_synthetic_links_filtered (listing : Str → Except Unit (List Entry))
    (getFileOk : Str → Bool) (fuel : Nat) (rp lb : Str) :
    spider_files (fun q => Except.map (List.filter cleanEntry) (listing q))
        getFileOk fuel rp lb =
      spider_files listing getFileOk fuel rp lb := by
  induction fuel generalizing rp with
  | zero => rfl
  | succ n ih =>
    have hrec : (fun rp2 => spider_files
          (fun q => Except.map (List.filter cleanEntry) (listing q))
          getFileOk n rp2 lb) =
        fun rp2 => spider_files listing getFileOk n rp2 lb :=
      funext fun rp2 => ih rp2
    simp only [spider_files]
    rw [hrec, (list_files_filter listing rp).1, (list_files_filter listing rp).2,
      spiderEntries_filter]

/-! ## Cycle behaviour of the walker (C2) -/

/-- C2 counterexample: the walker keeps no visited set.  Against a server
whose root listing reports the same directory name X twice, the remote path
X followed by a backslash is entered (listed) twice within one share
traversal, refuting the claim that the walker never re-enters a remote path
already visited in the same traversal. -/
theorem c2_counterexample :
    ((spider_files
        (fun p => if p = [] then Except.ok [⟨['X'], true⟩, ⟨['X'], true⟩]
          else Except.ok [])
        (fun _ => true) 3 [] ("b".data)).1.count
      (Event.listOk ('X' :: ['\\'])) = 2) ∧
    (spider_files
        (fun p => if p = [] then Except.ok [⟨['X'], true⟩, ⟨['X'], true⟩]
          else Except.ok [])
        (fun _ => true) 3 [] ("b".data)).2 = true := by
  constructor
  · decide
  · decide

/-- C2 (amended): the walker maintains no visited set and performs no loop
detection.  Against a server that reports directory X as a child of every
directory (in particular of X itself), the traversal completes within no
finite recursion budget whatsoever - each budget is exhausted, which in the
program is the unbounded recursion ended only by the interpreter's
RecursionError - and a server that reports the same directory twice makes
the walker re-enter an already visited remote path. -/
theorem c2_amended :
    (∀ fuel rp, (spider_files (fun _ => Except.ok [⟨['X'], true⟩])
        (fun _ => true) fuel rp ("output/h/s".data)).2 = false) ∧
    ((spider_files
        (fun p => if p = [] then Except.ok [⟨['X'], true⟩, ⟨['X'], true⟩]
          else Except.ok [])
        (fun _ => true) 4 [] ("output/h/s".data)).1.count
      (Event.listOk ('X' :: ['\\'])) = 2) := by
  constructor
  · intro fuel
    induction fuel with
    | zero => intro rp; rfl
    | succ n ih =>
      intro rp
      have hdot : ¬((⟨['X'], true⟩ : Entry).longname = ['.'] ∨
          (⟨['X'], true⟩ : Entry).longname = ['.', '.']) := by decide
      simp only [spider_files, list_files, spiderEntries, if_neg hdot, ih]
      simp [spiderEntries]
  · decide

/-! ## Session release (C3) -/

lemma logoff_notin_download (g : Str → Bool) (r l : Str) :
    Event.logoff ∉ download_file g r l := by
  unfold download_file
  by_cases h : g r = true <;> simp [h]

lemma logoff_notin_spiderEntries (recurse : Str → List Event × Bool)
    (g : Str → Bool) (rp lb : Str)
    (hrec : ∀ x, Event.logoff ∉ (recurse x).1) :
    ∀ es, Event.logoff ∉ (spiderEntries recurse g rp lb es).1 := by
  intro es
  induction es with
  | nil => simp [spiderEntries]
  | cons e rest ih =>
    by_cases h : e.longname = ['.'] ∨ e.longname = ['.', '.']
    · simpa [spiderEntries, h] using ih
    · simp only [spiderEntries, if_neg h]
      by_cases hd : e.is_directory = true
      · simp only [hd, if_true]
        by_cases hr : (recurse (full_remote_path rp e.longname ++ ['\\'])).2 = true
        · simp only [hr, if_true, List.mem_cons, List.mem_append]
          intro hmem
          rcases hmem with h1 | h2 | h3
          · exact Event.noConfusion h1
          · exact hrec _ h2
          · exact ih h3
        · simp only [Bool.not_eq_true] at hr
          simp only [hr, Bool.false_eq_true, if_false, List.mem_cons]
          intro hmem
          rcases hmem with h1 | h2
          · exact Event.noConfusion h1
          · exact hrec _ h2
      · simp only [Bool.not_eq_true] at hd
        simp only [hd, Bool.false_eq_true, if_false, List.mem_append]
        intro hmem
        rcases hmem with h1 | h2
        · exact logoff_notin_download g _ _ h1
        · exact ih h2

lemma logoff_notin_spider_files (L : Str → Except Unit (List Entry))
    (g : Str → Bool) :
    ∀ fuel rp lb, Event.logoff ∉ (spider_files L g fuel rp lb).1 := by
  intro fuel
  induction fuel with
  | zero => intro rp lb; simp [spider_files]
  | succ n ih =>
    intro rp lb
    simp only [spider_files, List.mem_append]
    intro hmem
    rcases hmem with h1 | h2
    · cases h : L rp <;> simp [list_files, h] at h1
    · exact logoff_notin_spiderEntries _ g rp lb (fun x => ih x lb) _ h2

lemma logoff_notin_spiderShares (L : Str → Str → Except Unit (List Entry))
    (g : Str → Str → Bool) (fuel : Nat) (hd : Str) :
    ∀ ss, Event.logoff ∉ (spiderShares L g fuel hd ss).1 := by
  intro ss
  induction ss with
  | nil => simp [spiderShares]
  | cons s rest ih =>
    simp only [spiderShares]
    by_cases hr : (spider_files (L s) (g s) fuel [] (posixJoin hd s)).2 = true
    · simp only [hr, if_true, List.mem_cons, List.mem_append]
      intro hmem
      rcases hmem with h1 | h2 | h3 | h4
      · exact Event.noConfusion h1
      · exact Event.noConfusion h2
      · exact logoff_notin_spider_files (L s) (g s) fuel [] (posixJoin hd s) h3
      · exact ih h4
    · simp only [Bool.not_eq_true] at hr
      simp only [hr, Bool.false_eq_true, if_false, List.mem_cons]
      intro hmem
      rcases hmem with h1 | h2 | h3
      · exact Event.noConfusion h1
      · exact Event.noConfusion h2
      · exact logoff_notin_spider_files (L s) (g s) fuel [] (posixJoin hd s) h3

/-- C3 (amended): for a session whose connect and login both succeed, the
logoff call happens exactly once precisely when the computed share list is
nonempty and spidering every share completed without an exception escaping
the per-share loop; on the no-shares early return and on the exception path
the session is never logged off. -/
theorem c3_logoff_amended (sharesRes : Except Unit (List Str))
    (listing : Str → Str → Except Unit (List Entry))
    (getFileOk : Str → Str → Bool) (fuel : Nat) (host u pw : Str) :
    (spider_smb_shares true true sharesRes listing getFileOk fuel host u pw).count
        Event.logoff =
      if (list_shares sharesRes).2 = [] then 0
      else if (spiderShares listing getFileOk fuel (host_directory host)
          (list_shares sharesRes).2).2 then 1 else 0 := by
  by_cases h : (list_shares sharesRes).2 = []
  · rw [if_pos h]
    simp only [spider_smb_shares, if_pos h, if_true]
    cases sharesRes <;> simp_all [list_shares, List.count_cons, List.count_append]
  · rw [if_neg h]
    simp only [spider_smb_shares, if_neg h, if_true]
    have hsh : ((spiderShares listing getFileOk fuel (host_directory host)
        (list_shares sharesRes).2).1).count Event.logoff = 0 :=
      List.count_eq_zero.2 (logoff_notin_spiderShares _ _ _ _ _)
    by_cases hr : (spiderShares listing getFileOk fuel (host_directory host)
        (list_shares sharesRes).2).2 = true
    · rw [if_pos hr]
      cases sharesRes <;>
        simp_all [list_shares, List.count_cons, List.count_append, hsh]
    · simp only [Bool.not_eq_true] at hr
      rw [if_neg (by simp [hr])]
      cases sharesRes <;>
        simp_all [list_shares, List.count_cons, List.count_append, hsh]

/-- C3 counterexample: a session that connects and authenticates
successfully but is shown zero shares returns through the no-shares path
and is never logged off, refuting the claim that every successfully
authenticated session is logged off exactly once on every exit path. -/
theorem c3_counterexample :
    spider_smb_shares true true (Except.ok []) (fun _ _ => Except.ok [])
        (fun _ _ => true) 5 ("10.0.0.5".data) ("guest".data) [] =
      [Event.connect, Event.login, Event.listSharesOk, Event.noShares] ∧
    Event.logoff ∉ spider_smb_shares true true (Except.ok [])
        (fun _ _ => Except.ok []) (fun _ _ => true) 5 ("10.0.0.5".data)
        ("guest".data) [] := by
  constructor
  · decide
  · decide

/-! ## Per-triple failure handling of the driver (C5, C8) -/

/-- C5: when login fails for a credential triple, the blanket handler of
spider_smb_shares records the failure for that triple (the connection-error
line), no local directory is created, no further remote call is made for
that triple (no share listing, no directory listing, no download), and the
sweep goes on with the next triple. -/
theorem c5_login_failure (O : Str × Str × Str → TripleCfg) (fuel : Nat)
    (t : Str × Str × Str) (rest : List (Str × Str × Str))
    (hc : (O t).conn_ok = true) (hl : (O t).login_ok = false) :
    tripleTrace O fuel t = [Event.connect, Event.connError] ∧
    Event.connError ∈ tripleTrace O fuel t ∧
    (∀ p, Event.mkdirs p ∉ tripleTrace O fuel t) ∧
    Event.listSharesOk ∉ tripleTrace O fuel t ∧
    Event.listSharesErr ∉ tripleTrace O fuel t ∧
    (∀ p, Event.listOk p ∉ tripleTrace O fuel t) ∧
    (∀ r l, Event.downloadOk r l ∉ tripleTrace O fuel t) ∧
    Event.logoff ∉ tripleTrace O fuel t ∧
    sweepFrom O fuel (t :: rest) =
      Event.tryMsg t.1 t.2.1 ::
        (tripleTrace O fuel t ++ sweepFrom O fuel rest) := by
  have htr : tripleTrace O fuel t = [Event.connect, Event.connError] := by
    simp [tripleTrace, spider_smb_shares, hc, hl]
  refine ⟨htr, ?_, ?_, ?_, ?_, ?_, ?_, ?_, ?_⟩ <;> simp [htr, sweepFrom]

/-- C5 witness: a concrete triple whose login fails produces exactly the
connect and connection-error events. -/
theorem c5_witness :
    ((fun _ => (⟨true, false, Except.ok [], fun _ _ => Except.ok [],
        fun _ _ => true⟩ : TripleCfg)) (("h".data, "u".data, "p".data))).conn_ok
      = true ∧
    ((fun _ => (⟨true, false, Except.ok [], fun _ _ => Except.ok [],
        fun _ _ => true⟩ : TripleCfg)) (("h".data, "u".data, "p".data))).login_ok
      = false ∧
    tripleTrace
        (fun _ => (⟨true, false, Except.ok [], fun _ _ => Except.ok [],
          fun _ _ => true⟩ : TripleCfg)) 3 (("h".data, "u".data, "p".data)) =
      [Event.connect, Event.connError] :=
  ⟨rfl, rfl,
    (c5_login_failure
      (fun _ => (⟨true, false, Except.ok [], fun _ _ => Except.ok [],
        fun _ _ => true⟩ : TripleCfg)) 3 (("h".data, "u".data, "p".data)) []
      rfl rfl).1⟩

/-- C8: a share-listing call that succeeds with the empty list produces the
explicit no-shares report and no error line, creates no directory at all
for the host, and the sweep proceeds with the next triple, while a failing
share-listing call produces the error line - the two outcomes are distinct
traces. -/
theorem c8_empty_share_list (O O2 : Str × Str × Str → TripleCfg) (fuel : Nat)
    (t : Str × Str × Str) (rest : List (Str × Str × Str))
    (h1 : (O t).conn_ok = true) (h2 : (O t).login_ok = true)
    (h3 : (O t).sharesRes = Except.ok [])
    (h4 : (O2 t).conn_ok = true) (h5 : (O2 t).login_ok = true)
    (h6 : (O2 t).sharesRes = Except.error ()) :
    tripleTrace O fuel t =
      [Event.connect, Event.login, Event.listSharesOk, Event.noShares] ∧
    tripleTrace O2 fuel t =
      [Event.connect, Event.login, Event.listSharesErr, Event.noShares] ∧
    tripleTrace O fuel t ≠ tripleTrace O2 fuel t ∧
    Event.noShares ∈ tripleTrace O fuel t ∧
    Event.listSharesErr ∉ tripleTrace O fuel t ∧
    (∀ p, Event.mkdirs p ∉ tripleTrace O fuel t) ∧
    sweepFrom O fuel (t :: rest) =
      Event.tryMsg t.1 t.2.1 ::
        (tripleTrace O fuel t ++ sweepFrom O fuel rest) := by
  have htr : tripleTrace O fuel t =
      [Event.connect, Event.login, Event.listSharesOk, Event.noShares] := by
    simp [tripleTrace, spider_smb_shares, h1, h2, h3, list_shares]
  have htr2 : tripleTrace O2 fuel t =
      [Event.connect, Event.login, Event.listSharesErr, Event.noShares] := by
    simp [tripleTrace, spider_smb_shares, h4, h5, h6, list_shares]
  refine ⟨htr, htr2, ?_, ?_, ?_, ?_, ?_⟩ <;> simp [htr, htr2, sweepFrom]

/-- C8 witness: concrete empty-share-list and failing-share-list triples. -/
theorem c8_witness :
    ((fun _ => (⟨true, true, Except.ok [], fun _ _ => Except.ok [],
        fun _ _ => true⟩ : TripleCfg)) (("h".data, "u".data, "p".data))).sharesRes
      = Except.ok [] ∧
    tripleTrace
        (fun _ => (⟨true, true, Except.ok [], fun _ _ => Except.ok [],
          fun _ _ => true⟩ : TripleCfg)) 3 (("h".data, "u".data, "p".data)) =
      [Event.connect, Event.login, Event.listSharesOk, Event.noShares] :=
  ⟨rfl,
    (c8_empty_share_list
      (fun _ => (⟨true, true, Except.ok [], fun _ _ => Except.ok [],
        fun _ _ => true⟩ : TripleCfg))
      (fun _ => (⟨true, true, Except.error (), fun _ _ => Except.ok [],
        fun _ _ => true⟩ : TripleCfg)) 3 (("h".data, "u".data, "p".data)) []
      rfl rfl rfl rfl rfl rfl).1⟩

/-! ## Scoped failure of listing and download (C6, C7)

Changing the oracle of one remote operation rewrites the trace pointwise
and leaves everything else of the traversal unchanged.  The master lemma
relates two runs whose oracles differ only through an event substitution. -/

lemma spiderEntries_map (σ : Event → Event)
    (rec1 rec2 : Str → List Event × Bool) (g1 g2 : Str → Bool) (rp lb : Str)
    (Hm : ∀ p, σ (Event.mkdirs p) = Event.mkdirs p)
    (Hd : ∀ r l, download_file g1 r l = (download_file g2 r l).map σ)
    (Hrec : ∀ x, (rec1 x).1 = ((rec2 x).1).map σ ∧ (rec1 x).2 = (rec2 x).2) :
    ∀ es, (spiderEntries rec1 g1 rp lb es).1 =
        ((spiderEntries rec2 g2 rp lb es).1).map σ ∧
      (spiderEntries rec1 g1 rp lb es).2 =
        (spiderEntries rec2 g2 rp lb es).2 := by
  intro es
  induction es with
  | nil => simp [spiderEntries]
  | cons e rest ih =>
    by_cases h : e.longname = ['.'] ∨ e.longname = ['.', '.']
    · simpa [spiderEntries, h] using ih
    · simp only [spiderEntries, if_neg h]
      by_cases hd : e.is_directory = true
      · simp only [hd, if_true]
        rcases Hrec (full_remote_path rp e.longname ++ ['\\']) with ⟨hr1, hr2⟩
        rw [hr2]
        by_cases hb : (rec2 (full_remote_path rp e.longname ++ ['\\'])).2 = true
        · simp only [hb, if_true]
          exact ⟨by simp [Hm, hr1, ih.1], ih.2⟩
        · simp only [Bool.not_eq_true] at hb
          simp only [hb, Bool.false_eq_true, if_false]
          exact ⟨by simp [Hm, hr1], by trivial⟩
      · simp only [Bool.not_eq_true] at hd
        simp only [hd, Bool.false_eq_true, if_false]
        exact ⟨by simp [Hd, ih.1], ih.2⟩

lemma spider_files_map (σ : Event → Event)
    (L1 L2 : Str → Except Unit (List Entry)) (g1 g2 : Str → Bool)
    (Hl : ∀ rp, (list_files L1 rp).2 = (list_files L2 rp).2 ∧
        (list_files L1 rp).1 = ((list_files L2 rp).1).map σ)
    (Hm : ∀ p, σ (Event.mkdirs p) = Event.mkdirs p)
    (Hd : ∀ r l, download_file g1 r l = (download_file g2 r l).map σ) :
    ∀ fuel rp lb, (spider_files L1 g1 fuel rp lb).1 =
        ((spider_files L2 g2 fuel rp lb).1).map σ ∧
      (spider_files L1 g1 fuel rp lb).2 =
        (spider_files L2 g2 fuel rp lb).2 := by
  intro fuel
  induction fuel with
  | zero => intro rp lb; simp [spider_files]
  | succ n ih =>
    intro rp lb
    rcases Hl rp with ⟨he, hev⟩
    have hstep := spiderEntries_map σ
      (fun rp2 => spider_files L1 g1 n rp2 lb)
      (fun rp2 => spider_files L2 g2 n rp2 lb) g1 g2 rp lb Hm Hd
      (fun x => ih x lb) ((list_files L2 rp).2)
    simp only [spider_files]
    rw [he, hev]
    exact ⟨by simp [hstep.1], hstep.2⟩

/-- The trace substitution replacing the successful-listing mark at path P
by the recorded listing-error line at P. -/
def substListErr (P : Str) (e : Event) : Event :=
  if e = Event.listOk P then Event.listErr P else e

/-- Download outcomes (success or failure marks). -/
def isDownloadEvent : Event → Bool
  | Event.downloadOk _ _ => true
  | Event.downloadErr _ => true
  | _ => false

lemma filter_download_map_substListErr (P : Str) :
    ∀ t : List Event, (t.map (substListErr P)).filter isDownloadEvent =
      t.filter isDownloadEvent := by
  intro t
  induction t with
  | nil => rfl
  | cons e rest ih =>
    by_cases h : e = Event.listOk P
    · subst h; simp [substListErr, isDownloadEvent, ih]
    · simp [substListErr, h, ih, List.filter_cons]

/-- C6: a directory-listing failure at a path P is caught at that path's
scope: the whole traversal behaves exactly as if the server had reported P
as an empty directory, except that the successful-listing mark at P becomes
the recorded listing-error line; in particular the recorded failure for P
is the only difference, the traversal completes equally, and every download
outcome anywhere else in the share - siblings of P and files under them
included - is unchanged. -/
theorem c6_listing_failure_scoped (L : Str → Except Unit (List Entry))
    (g : Str → Bool) (P : Str) (hP : L P = Except.error ())
    (fuel : Nat) (rp lb : Str) :
    (spider_files L g fuel rp lb).1 =
      ((spider_files (fun q => if q = P then Except.ok [] else L q)
          g fuel rp lb).1).map (substListErr P) ∧
    (spider_files L g fuel rp lb).2 =
      (spider_files (fun q => if q = P then Except.ok [] else L q)
        g fuel rp lb).2 ∧
    list_files L P = ([Event.listErr P], []) ∧
    (spider_files L g fuel rp lb).1.filter isDownloadEvent =
      ((spider_files (fun q => if q = P then Except.ok [] else L q)
          g fuel rp lb).1).filter isDownloadEvent := by
  have Hm : ∀ p, substListErr P (Event.mkdirs p) = Event.mkdirs p := by
    intro p; simp [substListErr]
  have Hd : ∀ r l, download_file g r l = (download_file g r l).map
      (substListErr P) := by
    intro r l
    by_cases hgr : g r = true <;> simp [download_file, hgr, substListErr]
  have Hl : ∀ q, (list_files L q).2 =
      (list_files (fun q2 => if q2 = P then Except.ok [] else L q2) q).2 ∧
      (list_files L q).1 =
        ((list_files (fun q2 => if q2 = P then Except.ok [] else L q2) q).1).map
          (substListErr P) := by
    intro q
    by_cases h : q = P
    · subst h; simp [list_files, hP, substListErr]
    · cases hq : L q <;> simp [list_files, h, hq, substListErr]
  have main := spider_files_map (substListErr P) L
    (fun q => if q = P then Except.ok [] else L q) g g Hl Hm Hd fuel rp lb
  refine ⟨main.1, main.2, by simp [list_files, hP], ?_⟩
  rw [main.1, filter_download_map_substListErr]

/-- C6 witness: a concrete server whose listing fails below directory d
downloads exactly the same files as the server reporting d empty. -/
theorem c6_witness :
    (fun q => if q = ('d' :: ['\\']) then (Except.error () : Except Unit (List Entry))
      else if q = [] then Except.ok [⟨['d'], true⟩, ⟨['f'], false⟩]
      else Except.ok []) ('d' :: ['\\']) = (Except.error () : Except Unit (List Entry)) ∧
    (spider_files
        (fun q => if q = ('d' :: ['\\']) then (Except.error () : Except Unit (List Entry))
          else if q = [] then Except.ok [⟨['d'], true⟩, ⟨['f'], false⟩]
          else Except.ok [])
        (fun _ => true) 3 [] ("b".data)).1.filter isDownloadEvent =
      ((spider_files
          (fun q => if q = ('d' :: ['\\']) then Except.ok []
            else (fun q2 => if q2 = ('d' :: ['\\']) then (Except.error () : Except Unit (List Entry))
              else if q2 = [] then Except.ok [⟨['d'], true⟩, ⟨['f'], false⟩]
              else Except.ok []) q)
          (fun _ => true) 3 [] ("b".data)).1).filter isDownloadEvent :=
  ⟨rfl,
    (c6_listing_failure_scoped
      (fun q => if q = ('d' :: ['\\']) then (Except.error () : Except Unit (List Entry))
        else if q = [] then Except.ok [⟨['d'], true⟩, ⟨['f'], false⟩]
        else Except.ok [])
      (fun _ => true) ('d' :: ['\\']) rfl 3 [] ("b".data)).2.2.2⟩

/-- The trace substitution replacing the successful-download mark of remote
path R by the recorded download-failure line for R. -/
def substDownloadErr (R : Str) : Event → Event
  | Event.downloadOk r l => if r = R then Event.downloadErr R else Event.downloadOk r l
  | e => e

/-- C7: a failure while downloading the file at remote path R is caught at
that file's scope and recorded as a failure - never as a success - and the
rest of the traversal is exactly the run in which that download succeeds,
with only that file's outcome mark rewritten; in particular all later files
in the same directory and in other directories are still processed. -/
theorem c7_download_failure_scoped (L : Str → Except Unit (List Entry))
    (g : Str → Bool) (R : Str) (hR : g R = false) (fuel : Nat) (rp lb : Str) :
    (∀ l, download_file g R l =
      [Event.mkdirs (dirname l), Event.downloadErr R]) ∧
    (∀ l l2, Event.downloadOk R l2 ∉ download_file g R l) ∧
    (spider_files L g fuel rp lb).1 =
      ((spider_files L (fun r => if r = R then true else g r) fuel rp lb).1).map
        (substDownloadErr R) ∧
    (spider_files L g fuel rp lb).2 =
      (spider_files L (fun r => if r = R then true else g r) fuel rp lb).2 := by
  have Hm : ∀ p, substDownloadErr R (Event.mkdirs p) = Event.mkdirs p := by
    intro p; simp [substDownloadErr]
  have Hl : ∀ q, (list_files L q).2 = (list_files L q).2 ∧
      (list_files L q).1 = ((list_files L q).1).map (substDownloadErr R) := by
    intro q
    cases hq : L q <;> simp [list_files, hq, substDownloadErr]
  have Hd : ∀ r l, download_file g r l =
      (download_file (fun r2 => if r2 = R then true else g r2) r l).map
        (substDownloadErr R) := by
    intro r l
    by_cases hr : r = R
    · subst hr; simp [download_file, hR, substDownloadErr]
    · by_cases hgr : g r = true <;>
        simp [download_file, hr, hgr, substDownloadErr]
  have main := spider_files_map (substDownloadErr R) L L g
    (fun r => if r = R then true else g r) Hl Hm Hd fuel rp lb
  exact ⟨fun l => by simp [download_file, hR],
    fun l l2 => by simp [download_file, hR], main.1, main.2⟩

/-- C7 witness: with a concrete server serving two files and a download
oracle failing on the first, the trace is the successful run with that one
outcome rewritten to a failure. -/
theorem c7_witness :
    (fun r => !(r == ['f'])) ['f'] = false ∧
    (spider_files
        (fun q => if q = [] then Except.ok [⟨['f'], false⟩, ⟨['h'], false⟩]
          else Except.ok [])
        (fun r => !(r == ['f'])) 3 [] ("b".data)).1 =
      ((spider_files
          (fun q => if q = [] then Except.ok [⟨['f'], false⟩, ⟨['h'], false⟩]
            else Except.ok [])
          (fun r => if r = ['f'] then true else !(r == ['f'])) 3 []
          ("b".data)).1).map (substDownloadErr ['f']) :=
  ⟨by decide,
    (c7_download_failure_scoped
      (fun q => if q = [] then Except.ok [⟨['f'], false⟩, ⟨['h'], false⟩]
        else Except.ok [])
      (fun r => !(r == ['f'])) ['f'] (by decide) 3 [] ("b".data)).2.2.1⟩

/-! ## The credential sweep order (C4) -/

lemma length_flatMap_const {α β : Type} (l : List α) (f : α → List β) (n : Nat)
    (hf : ∀ a, (f a).length = n) : (l.flatMap f).length = l.length * n := by
  induction l with
  | nil => simp
  | cons a t ih =>
    simp [List.flatMap_cons, ih, hf, Nat.succ_mul, Nat.add_comm]

lemma getElem?_flatMap_const {α β : Type} (l : List α) (f : α → List β)
    (n : Nat) (hf : ∀ a, (f a).length = n) (i j : Nat) (hj : j < n) :
    ∀ hi : i < l.length,
      (l.flatMap f)[i * n + j]? = (f (l.get ⟨i, hi⟩))[j]? := by
  induction l generalizing i with
  | nil => intro hi; exact absurd hi (by simp)
  | cons a t ih =>
    intro hi
    cases i with
    | zero =>
      simp only [List.flatMap_cons]
      rw [Nat.zero_mul, Nat.zero_add,
        List.getElem?_append_left (by rw [hf]; exact hj)]
      rfl
    | succ i2 =>
      simp only [List.flatMap_cons]
      have harith : (i2 + 1) * n + j = (f a).length + (i2 * n + j) := by
        rw [hf]; ring
      rw [harith, List.getElem?_append_right (Nat.le_add_right _ _),
        Nat.add_sub_cancel_left]
      exact ih i2 (Nat.lt_of_succ_lt_succ hi)

lemma count_map_triple (h u : Str) (pws : List Str) (x y z : Str) :
    ((pws.map fun p => (h, u, p)).count (x, y, z)) =
      if h = x ∧ u = y then pws.count z else 0 := by
  induction pws with
  | nil => simp
  | cons p t ih =>
    simp only [List.map_cons, List.count_cons, ih, beq_iff_eq, Prod.mk.injEq]
    by_cases hxy : h = x ∧ u = y
    · rcases hxy with ⟨hx, hy⟩
      subst hx; subst hy
      by_cases hz : p = z <;> simp [hz]
    · rw [if_neg hxy, if_neg hxy, if_neg (by tauto)]

lemma count_flatMap_inner (h : Str) (users pws : List Str) (x y z : Str) :
    ((users.flatMap fun u => pws.map fun p => (h, u, p)).count (x, y, z)) =
      if h = x then users.count y * pws.count z else 0 := by
  induction users with
  | nil => simp
  | cons u t ih =>
    simp only [List.flatMap_cons, List.count_append, ih, count_map_triple]
    by_cases hx : h = x
    · subst hx
      by_cases hy : u = y
      · subst hy
        simp [List.count_cons_self]
        ring
      · simp [hy, List.count_cons_of_ne (fun hc => hy hc.symm)]
    · simp [hx]

lemma count_credentialTriples (hosts users pws : List Str) (x y z : Str) :
    (credentialTriples hosts users pws).count (x, y, z) =
      hosts.count x * (users.count y * pws.count z) := by
  induction hosts with
  | nil => simp [credentialTriples]
  | cons a t ih =>
    simp only [credentialTriples, List.flatMap_cons, List.count_append] at ih ⊢
    rw [ih, count_flatMap_inner]
    by_cases hx : a = x
    · subst hx
      simp [List.count_cons_self]
      ring
    · simp [hx, List.count_cons_of_ne (fun hc => hx hc.symm)]

/-- C4: the driver's iteration list is the full Cartesian product in the
fixed order host outermost, username middle, password innermost: it has
exactly length |hosts|*|users|*|passwords|, the element at the position
determined by the three indices is exactly the corresponding triple, and
each value occurs with the product of the input multiplicities - duplicated
input lines are attempted again, not deduplicated. -/
theorem c4_cartesian_product (hosts users pws : List Str) :
    (credentialTriples hosts users pws).length =
      hosts.length * (users.length * pws.length) ∧
    (∀ x y z : Str, (credentialTriples hosts users pws).count (x, y, z) =
      hosts.count x * (users.count y * pws.count z)) ∧
    (∀ i j k (hi : i < hosts.length) (hj : j < users.length)
        (hk : k < pws.length),
      (credentialTriples hosts users pws)[i * (users.length * pws.length) +
          (j * pws.length + k)]? =
        some (hosts.get ⟨i, hi⟩, users.get ⟨j, hj⟩, pws.get ⟨k, hk⟩)) := by
  have hinner : ∀ a : Str,
      ((users.flatMap fun u => pws.map fun p => (a, u, p)).length) =
        users.length * pws.length := by
    intro a
    exact length_flatMap_const users _ pws.length (fun u => by simp)
  refine ⟨length_flatMap_const hosts _ _ hinner,
    fun x y z => count_credentialTriples hosts users pws x y z, ?_⟩
  intro i j k hi hj hk
  have hjk : j * pws.length + k < users.length * pws.length := by
    have h1 : j * pws.length + k < (j + 1) * pws.length := by
      rw [Nat.succ_mul]; omega
    exact Nat.lt_of_lt_of_le h1
      (Nat.mul_le_mul_right _ (Nat.succ_le_of_lt hj))
  rw [credentialTriples,
    getElem?_flatMap_const hosts _ (users.length * pws.length) hinner i
      (j * pws.length + k) hjk hi,
    getElem?_flatMap_const users _ pws.length (fun u => by simp) j k hk hj,
    List.getElem?_map, List.getElem?_eq_getElem hk]
  rfl

/-- C4 witness: with a duplicated host line, the triple at flat position
1*(1*2)+(0*2+0) is the second copy of the host paired with the first user
and first password. -/
theorem c4_witness :
    (credentialTriples ["a".data, "a".data] ["u".data]
        ["p".data, "q".data])[1 *
        ((["u".data] : List Str).length *
          (["p".data, "q".data] : List Str).length) +
        (0 * (["p".data, "q".data] : List Str).length + 0)]? =
      some ((["a".data, "a".data] : List Str).get ⟨1, by decide⟩,
        (["u".data] : List Str).get ⟨0, by decide⟩,
        (["p".data, "q".data] : List Str).get ⟨0, by decide⟩) :=
  (c4_cartesian_product ["a".data, "a".data] ["u".data]
    ["p".data, "q".data]).2.2 1 0 0 (by decide) (by decide) (by decide)

/-! ## Netname truncation and the empty share name (C10) -/

/-- Strip trailing separators: two path strings equal after this denote the
same directory for os.makedirs. -/
def stripTrailingSlashes (p : Str) : Str :=
  (p.reverse.dropWhile fun c => c == '/').reverse

lemma host_directory_eq (host : Str) (h2 : host.head? ≠ some '/') :
    host_directory host = "output".data ++ '/' :: host := by
  unfold host_directory posixJoin
  rw [if_neg h2, if_neg (by decide)]

lemma host_directory_getLast (host : Str) (h1 : host ≠ [])
    (h2 : host.head? ≠ some '/') :
    (host_directory host).getLast? = host.getLast? := by
  rw [host_directory_eq host h2,
    show ("output".data ++ '/' :: host) = (("output".data ++ ['/']) ++ host) by
      simp]
  exact List.getLast?_append_of_ne_nil _ h1

/-- C10: list_shares uses every reported netname with its final character
removed (the Python slice [:-1]), so a length-one netname yields the empty
share name; for the empty share name the computed share directory is the
host directory followed by a bare separator - which names the same
directory as the host directory itself. -/
theorem c10_netname_truncation (raw : List Str) (w : Str) (c : Char)
    (host : Str) (h1 : host ≠ []) (h2 : host.head? ≠ some '/')
    (h3 : host.getLast? ≠ some '/') :
    (list_shares (Except.ok raw)).2 = raw.map List.dropLast ∧
    (list_shares (Except.ok [w ++ [c]])).2 = [w] ∧
    (list_shares (Except.ok [[c]])).2 = [[]] ∧
    share_directory host [] = host_directory host ++ ['/'] ∧
    stripTrailingSlashes (share_directory host []) =
      stripTrailingSlashes (host_directory host) := by
  have h4 : share_directory host [] = host_directory host ++ ['/'] := by
    unfold share_directory posixJoin
    have hne : ¬(host_directory host = [] ∨
        (host_directory host).getLast? = some '/') := by
      rw [host_directory_eq host h2]
      intro hor
      rcases hor with hnil | hlast
      · simp at hnil
      · rw [show ("output".data ++ '/' :: host) =
            (("output".data ++ ['/']) ++ host) by simp,
          List.getLast?_append_of_ne_nil _ h1] at hlast
        exact h3 hlast
    rw [if_neg (by simp), if_neg hne]
  refine ⟨rfl, by simp [list_shares], by simp [list_shares], h4, ?_⟩
  rw [h4]
  simp [stripTrailingSlashes, List.dropWhile_cons]

/-- C10 witness: a concrete netname loses its final character and the empty
share name situates the share directory at the host directory. -/
theorem c10_witness :
    ("10.0.0.5".data : Str) ≠ [] ∧
    (list_shares (Except.ok ["IPC".data ++ ['$']])).2 = ["IPC".data] ∧
    share_directory ("10.0.0.5".data) [] =
      host_directory ("10.0.0.5".data) ++ ['/'] :=
  ⟨by decide,
    (c10_netname_truncation [] ("IPC".data) '$' ("10.0.0.5".data) (by decide)
      (by decide) (by decide)).2.1,
    (c10_netname_truncation [] ("IPC".data) '$' ("10.0.0.5".data) (by decide)
      (by decide) (by decide)).2.2.2.1⟩

/-! ## The remote-to-local path mapping (C1) -/

/-- C1 counterexample: the mapping of source lines 91-92 is neither
sandboxed nor injective.  A server-reported name beginning with a slash
makes os.path.join discard the local base entirely, producing a local path
outside the output root, and two distinct remote names that differ only in
the separator character map to the same local path. -/
theorem c1_counterexample :
    local_path_of (share_directory ("h".data) ("s".data)) [] ("/etc/x".data) =
      "/etc/x".data ∧
    ¬ ("output".data <+:
        local_path_of (share_directory ("h".data) ("s".data)) []
          ("/etc/x".data)) ∧
    ("a\\b".data : Str) ≠ "a/b".data ∧
    local_path_of (share_directory ("h".data) ("s".data)) [] ("a\\b".data) =
      local_path_of (share_directory ("h".data) ("s".data)) [] ("a/b".data) := by
  refine ⟨by decide, by decide, by decide, by decide⟩

/-- A remote name that is a single benign path component: nonempty, free of
both separator characters, and not one of the synthetic link names. -/
def goodName (s : Str) : Prop :=
  s ≠ [] ∧ '/' ∉ s ∧ '\\' ∉ s ∧ s ≠ ['.'] ∧ s ≠ ['.', '.']

instance : DecidablePred goodName := fun s => by
  unfold goodName; infer_instance

/-- The separator pattern the traversal produces between consecutive
components: the backslash appended before each recursion later turns into a
slash right next to the slash os.path.join inserts, so successive
components end up separated by a double slash. -/
def sepJoin : List Str → Str
  | [] => []
  | [x] => x
  | x :: y :: rest => x ++ '/' :: '/' :: sepJoin (y :: rest)

/-- One traversal step: the remote-path argument passed to the recursive
spider_files call after entering directory seg (source line 97). -/
def rpStep (remote_path seg : Str) : Str :=
  full_remote_path remote_path seg ++ ['\\']

/-- The remote-path argument spider_files carries after entering the given
chain of directory names from the share root. -/
def rpAfter (segs : List Str) : Str := segs.foldl rpStep []

lemma goodName_head (s : Str) (h : goodName s) :
    s.head? ≠ some '/' ∧ s.head? ≠ some '\\' := by
  rcases h with ⟨hne, hs, hb, _, _⟩
  cases s with
  | nil => exact absurd rfl hne
  | cons a t =>
    constructor <;> intro hc <;> simp only [List.head?_cons,
      Option.some.injEq] at hc <;> subst hc
    · exact hs (List.mem_cons_self _ _)
    · exact hb (List.mem_cons_self _ _)

lemma goodName_getLast (s : Str) (h : goodName s) : s.getLast? ≠ some '/' := by
  intro hc
  exact h.2.1 (List.mem_of_getLast?_eq_some hc)

lemma replaceBackslash_of_not_mem (s : Str) (h : '\\' ∉ s) :
    replaceBackslash s = s := by
  induction s with
  | nil => rfl
  | cons a t ih =>
    have ha : ¬(a = '\\') := by
      intro hc; rw [hc] at h; exact h (List.mem_cons_self _ _)
    simp only [replaceBackslash, List.map_cons, if_neg ha]
    rw [show List.map (fun c => if c = '\\' then '/' else c) t =
        replaceBackslash t from rfl,
      ih (fun hm => h (List.mem_cons_of_mem _ hm))]

lemma replaceBackslash_append (a b : Str) :
    replaceBackslash (a ++ b) = replaceBackslash a ++ replaceBackslash b :=
  List.map_append _ a b

lemma backslash_not_mem_sepJoin : ∀ l : List Str,
    (∀ x ∈ l, '\\' ∉ x) → '\\' ∉ sepJoin l
  | [] => by intro _; simp [sepJoin]
  | [x] => by
    intro h; simpa [sepJoin] using h x (List.mem_cons_self _ _)
  | x :: y :: rest => by
    intro h
    have ih := backslash_not_mem_sepJoin (y :: rest)
      (fun z hz => h z (List.mem_cons_of_mem _ hz))
    simp only [sepJoin, List.mem_append, List.mem_cons]
    intro hc
    rcases hc with h1 | h2 | h3 | h4
    · exact h x (List.mem_cons_self _ _) h1
    · exact absurd h2 (by decide)
    · exact absurd h3 (by decide)
    · exact ih h4

lemma sepJoin_head (x : Str) (l : List Str) (hx : x ≠ []) :
    (sepJoin (x :: l)).head? = x.head? := by
  cases l with
  | nil => rfl
  | cons y rest =>
    simp only [sepJoin]
    exact List.head?_append_of_ne_nil _ hx

lemma sepJoin_concat : ∀ (l : List Str) (t : Str), l ≠ [] →
    sepJoin (l ++ [t]) = sepJoin l ++ '/' :: '/' :: t
  | [], t => by intro h; exact absurd rfl h
  | [x], t => by intro _; simp [sepJoin]
  | x :: y :: rest, t => by
    intro _
    have ih := sepJoin_concat (y :: rest) t (by simp)
    calc sepJoin ((x :: y :: rest) ++ [t])
        = x ++ '/' :: '/' :: sepJoin ((y :: rest) ++ [t]) := rfl
      _ = x ++ '/' :: '/' :: (sepJoin (y :: rest) ++ '/' :: '/' :: t) := by
          rw [ih]
      _ = (x ++ '/' :: '/' :: sepJoin (y :: rest)) ++ '/' :: '/' :: t := by
          simp [List.append_assoc]
      _ = sepJoin (x :: y :: rest) ++ '/' :: '/' :: t := rfl

lemma rpAfter_concat (segs : List Str) (t : Str) :
    rpAfter (segs ++ [t]) = rpStep (rpAfter segs) t := by
  unfold rpAfter
  rw [List.foldl_append]
  rfl

lemma full_remote_path_nil (f : Str) (hf : goodName f) :
    full_remote_path [] f = f := by
  unfold full_remote_path posixJoin
  rw [if_neg (goodName_head f hf).1, if_pos (Or.inl rfl), List.nil_append]
  exact replaceBackslash_of_not_mem f hf.2.2.1

lemma full_remote_path_step (l : List Str) (t : Str)
    (hl : ∀ x ∈ l, goodName x) (hlne : l ≠ []) (ht : goodName t) :
    full_remote_path (sepJoin l ++ ['\\']) t = sepJoin (l ++ [t]) := by
  have hbs : '\\' ∉ sepJoin l :=
    backslash_not_mem_sepJoin l (fun x hx => (hl x hx).2.2.1)
  have hrt : replaceBackslash ('/' :: t) = '/' :: t := by
    refine replaceBackslash_of_not_mem _ ?_
    intro hm
    rcases List.mem_cons.1 hm with h | h
    · exact absurd h (by decide)
    · exact ht.2.2.1 h
  unfold full_remote_path posixJoin
  rw [if_neg (goodName_head t ht).1]
  rw [if_neg (by
    intro hor
    rcases hor with h1 | h2
    · simp at h1
    · rw [List.getLast?_append_of_ne_nil _ (by simp)] at h2
      simp at h2)]
  calc replaceBackslash ((sepJoin l ++ ['\\']) ++ '/' :: t)
      = (replaceBackslash (sepJoin l) ++ replaceBackslash ['\\']) ++
          replaceBackslash ('/' :: t) := by
        rw [replaceBackslash_append, replaceBackslash_append]
    _ = (sepJoin l ++ ['/']) ++ '/' :: t := by
        rw [replaceBackslash_of_not_mem _ hbs, hrt]; rfl
    _ = sepJoin l ++ '/' :: '/' :: t := by simp [List.append_assoc]
    _ = sepJoin (l ++ [t]) := (sepJoin_concat l t hlne).symm

lemma rpAfter_good : ∀ segs : List Str, (∀ x ∈ segs, goodName x) →
    segs ≠ [] → rpAfter segs = sepJoin segs ++ ['\\'] := by
  intro segs
  induction segs using List.reverseRecOn with
  | nil => intro _ hne; exact absurd rfl hne
  | append_singleton l t ih =>
    intro hs _
    rw [rpAfter_concat]
    by_cases hl : l = []
    · subst hl
      unfold rpStep
      rw [show rpAfter ([] : List Str) = [] from rfl,
        full_remote_path_nil t (hs t (by simp))]
      rfl
    · have ih2 := ih (fun x hx => hs x (List.mem_append.2 (Or.inl hx))) hl
      rw [ih2]
      unfold rpStep
      rw [full_remote_path_step l t
        (fun x hx => hs x (List.mem_append.2 (Or.inl hx))) hl
        (hs t (List.mem_append.2 (Or.inr (by simp))))]

lemma full_remote_path_rpAfter (segs : List Str) (f : Str)
    (hs : ∀ x ∈ segs, goodName x) (hf : goodName f) :
    full_remote_path (rpAfter segs) f = sepJoin (segs ++ [f]) := by
  by_cases h : segs = []
  · subst h
    rw [show rpAfter ([] : List Str) = [] from rfl, full_remote_path_nil f hf]
    rfl
  · rw [rpAfter_good segs hs h, full_remote_path_step segs f hs h hf]

lemma lstripBackslash_of_head (s : Str) (h : s.head? ≠ some '\\') :
    lstripBackslash s = s := by
  cases s with
  | nil => rfl
  | cons a t =>
    have ha : ¬((a == '\\') = true) := by
      simp only [beq_iff_eq]
      intro hc; subst hc; exact h rfl
    unfold lstripBackslash
    simp [List.dropWhile_cons, ha]

lemma local_path_formula (base : Str) (hb : base ≠ [])
    (hb2 : base.getLast? ≠ some '/') (segs : List Str) (f : Str)
    (hs : ∀ x ∈ segs, goodName x) (hf : goodName f) :
    local_path_of base (rpAfter segs) f =
      base ++ '/' :: sepJoin (segs ++ [f]) := by
  unfold local_path_of
  rw [full_remote_path_rpAfter segs f hs hf]
  have hhd : (sepJoin (segs ++ [f])).head? ≠ some '\\' ∧
      (sepJoin (segs ++ [f])).head? ≠ some '/' := by
    cases segs with
    | nil =>
      have hg := goodName_head f hf
      exact ⟨hg.2, hg.1⟩
    | cons a rest =>
      rw [show (a :: rest) ++ [f] = a :: (rest ++ [f]) from rfl,
        sepJoin_head a _ (hs a (List.mem_cons_self _ _)).1]
      exact ⟨(goodName_head a (hs a (List.mem_cons_self _ _))).2,
        (goodName_head a (hs a (List.mem_cons_self _ _))).1⟩
  rw [lstripBackslash_of_head _ hhd.1]
  unfold posixJoin
  rw [if_neg hhd.2, if_neg (fun hor => hor.elim hb hb2)]

lemma takeWhile_slash_append (x r : Str) (hx : '/' ∉ x) :
    (x ++ '/' :: r).takeWhile (fun c => c != '/') = x := by
  induction x with
  | nil => simp [List.takeWhile_cons]
  | cons a t ih =>
    have ha : (a != '/') = true := by
      simp only [bne_iff_ne, ne_eq]
      intro hc; subst hc; exact hx (List.mem_cons_self _ _)
    rw [List.cons_append, List.takeWhile_cons]
    simp only [ha, if_true]
    rw [ih (fun hm => hx (List.mem_cons_of_mem _ hm))]

lemma sepJoin_inj : ∀ l1 l2 : List Str,
    (∀ x ∈ l1, x ≠ [] ∧ '/' ∉ x) → (∀ x ∈ l2, x ≠ [] ∧ '/' ∉ x) →
    sepJoin l1 = sepJoin l2 → l1 = l2
  | [], [], _, _, _ => rfl
  | [], y :: l2, _, h2, heq => by
    exfalso
    have hh := sepJoin_head y l2 (h2 y (List.mem_cons_self _ _)).1
    rw [← heq] at hh
    cases hy : y with
    | nil => exact (h2 y (List.mem_cons_self _ _)).1 hy
    | cons b t =>
      rw [hy, show sepJoin ([] : List Str) = [] from rfl] at hh
      simp at hh
  | x :: l1, [], h1, _, heq => by
    exfalso
    have hh := sepJoin_head x l1 (h1 x (List.mem_cons_self _ _)).1
    rw [heq] at hh
    cases hx : x with
    | nil => exact (h1 x (List.mem_cons_self _ _)).1 hx
    | cons b t =>
      rw [hx, show sepJoin ([] : List Str) = [] from rfl] at hh
      simp at hh
  | [x], [y], _, _, heq => by
    rw [show sepJoin [x] = x from rfl, show sepJoin [y] = y from rfl] at heq
    rw [heq]
  | [x], y :: y2 :: l2, h1, _, heq => by
    exfalso
    have hx : '/' ∉ x := (h1 x (List.mem_cons_self _ _)).2
    rw [show sepJoin [x] = x from rfl] at heq
    apply hx
    rw [heq]
    show '/' ∈ y ++ '/' :: '/' :: sepJoin (y2 :: l2)
    exact List.mem_append.2 (Or.inr (List.mem_cons_self _ _))
  | x :: x2 :: l1, [y], _, h2, heq => by
    exfalso
    have hy : '/' ∉ y := (h2 y (List.mem_cons_self _ _)).2
    rw [show sepJoin [y] = y from rfl] at heq
    apply hy
    rw [← heq]
    show '/' ∈ x ++ '/' :: '/' :: sepJoin (x2 :: l1)
    exact List.mem_append.2 (Or.inr (List.mem_cons_self _ _))
  | x :: x2 :: l1, y :: y2 :: l2, h1, h2, heq => by
    have hx : '/' ∉ x := (h1 x (List.mem_cons_self _ _)).2
    have hy : '/' ∉ y := (h2 y (List.mem_cons_self _ _)).2
    have heq2 : x ++ '/' :: '/' :: sepJoin (x2 :: l1) =
        y ++ '/' :: '/' :: sepJoin (y2 :: l2) := heq
    have hxy : x = y := by
      have t1 := takeWhile_slash_append x ('/' :: sepJoin (x2 :: l1)) hx
      have t2 := takeWhile_slash_append y ('/' :: sepJoin (y2 :: l2)) hy
      rw [← t1, ← t2, heq2]
    subst hxy
    have htail := List.append_cancel_left heq2
    simp only [List.cons.injEq, true_and] at htail
    have hrec := sepJoin_inj (x2 :: l1) (y2 :: l2)
      (fun z hz => h1 z (List.mem_cons_of_mem _ hz))
      (fun z hz => h2 z (List.mem_cons_of_mem _ hz)) htail
    rw [hrec]

lemma append_slash_inj (x y r1 r2 : Str) (hx : '/' ∉ x) (hy : '/' ∉ y)
    (heq : x ++ '/' :: r1 = y ++ '/' :: r2) : x = y ∧ r1 = r2 := by
  have hxy : x = y := by
    have t1 := takeWhile_slash_append x r1 hx
    have t2 := takeWhile_slash_append y r2 hy
    rw [← t1, ← t2, heq]
  subst hxy
  have htail := List.append_cancel_left heq
  simp only [List.cons.injEq, true_and] at htail
  exact ⟨rfl, htail⟩

lemma share_directory_good (host share : Str) (hh : goodName host)
    (hsh : goodName share) :
    share_directory host share =
      ("output".data ++ '/' :: host) ++ '/' :: share ∧
    share_directory host share ≠ [] ∧
    (share_directory host share).getLast? ≠ some '/' := by
  have h1 : host_directory host = "output".data ++ '/' :: host :=
    host_directory_eq host (goodName_head host hh).1
  have hhg : ("output".data ++ '/' :: host).getLast? = host.getLast? := by
    rw [show ("output".data ++ '/' :: host) =
        (("output".data ++ ['/']) ++ host) by simp]
    exact List.getLast?_append_of_ne_nil _ hh.1
  have h2 : share_directory host share =
      ("output".data ++ '/' :: host) ++ '/' :: share := by
    unfold share_directory posixJoin
    rw [h1, if_neg (goodName_head share hsh).1]
    rw [if_neg (by
      intro hor
      rcases hor with hnil | hlast
      · simp at hnil
      · rw [hhg] at hlast
        exact goodName_getLast host hh hlast)]
  refine ⟨h2, ?_, ?_⟩
  · rw [h2]; simp
  · rw [h2,
      show (("output".data ++ '/' :: host) ++ '/' :: share) =
        ((("output".data ++ '/' :: host) ++ ['/']) ++ share) by simp,
      List.getLast?_append_of_ne_nil _ hsh.1]
    exact goodName_getLast share hsh

/-- C1 (amended): the remote-to-local mapping of source lines 91-92 is a
pure deterministic function; restricted to benign share names and remote
names - nonempty, free of slash and backslash, and not one of the synthetic
link names - the local path of a file reached through a chain of
directories is the share directory, a separator, and the chain joined by
double separators, so it is a strict descendant of output/<host>/<share>/
and the mapping is injective on (share, directory chain, filename) within a
host: local paths from two shares of the same host can only coincide when
share, chain and filename all coincide.  The counterexample shows both
guarantees fail without the restriction: a name starting with a slash
escapes the output root and names differing only in separator characters
collide. -/
theorem c1_amended_sandbox (host share share2 : Str) (segs segs2 : List Str)
    (f f2 : Str) (hh : goodName host) (hsh : goodName share)
    (hsh2 : goodName share2)
    (hs : ∀ x ∈ segs, goodName x) (hf : goodName f)
    (hs2 : ∀ x ∈ segs2, goodName x) (hf2 : goodName f2) :
    local_path_of (share_directory host share) (rpAfter segs) f =
      share_directory host share ++ '/' :: sepJoin (segs ++ [f]) ∧
    (share_directory host share ++ ['/']) <+:
      local_path_of (share_directory host share) (rpAfter segs) f ∧
    (local_path_of (share_directory host share) (rpAfter segs) f =
        local_path_of (share_directory host share2) (rpAfter segs2) f2 →
      share = share2 ∧ segs = segs2 ∧ f = f2) := by
  obtain ⟨hsd, hne, hlast⟩ := share_directory_good host share hh hsh
  obtain ⟨hsd2, hne2, hlast2⟩ := share_directory_good host share2 hh hsh2
  have hform := local_path_formula (share_directory host share) hne hlast
    segs f hs hf
  have hform2 := local_path_formula (share_directory host share2) hne2 hlast2
    segs2 f2 hs2 hf2
  refine ⟨hform, ?_, ?_⟩
  · rw [hform]
    exact ⟨sepJoin (segs ++ [f]), by simp⟩
  · intro heq
    rw [hform, hform2, hsd, hsd2] at heq
    have h3 : ("output".data ++ '/' :: host) ++
          '/' :: (share ++ '/' :: sepJoin (segs ++ [f])) =
        ("output".data ++ '/' :: host) ++
          '/' :: (share2 ++ '/' :: sepJoin (segs2 ++ [f2])) := by
      simpa [List.append_assoc] using heq
    have heq2 : share ++ '/' :: sepJoin (segs ++ [f]) =
        share2 ++ '/' :: sepJoin (segs2 ++ [f2]) := by
      have h4 := List.append_cancel_left h3
      simpa using h4
    obtain ⟨hss, hjj⟩ :=
      append_slash_inj share share2 _ _ hsh.2.1 hsh2.2.1 heq2
    subst hss
    have hgood1 : ∀ x ∈ segs ++ [f], x ≠ [] ∧ '/' ∉ x := by
      intro x hxm
      rcases List.mem_append.1 hxm with hm | hm
      · exact ⟨(hs x hm).1, (hs x hm).2.1⟩
      · have hxf := List.mem_singleton.1 hm
        subst hxf
        exact ⟨hf.1, hf.2.1⟩
    have hgood2 : ∀ x ∈ segs2 ++ [f2], x ≠ [] ∧ '/' ∉ x := by
      intro x hxm
      rcases List.mem_append.1 hxm with hm | hm
      · exact ⟨(hs2 x hm).1, (hs2 x hm).2.1⟩
      · have hxf := List.mem_singleton.1 hm
        subst hxf
        exact ⟨hf2.1, hf2.2.1⟩
    have hl := sepJoin_inj (segs ++ [f]) (segs2 ++ [f2]) hgood1 hgood2 hjj
    have hrev := congrArg List.reverse hl
    simp only [List.reverse_append, List.reverse_singleton,
      List.singleton_append, List.cons.injEq, List.reverse_inj] at hrev
    exact ⟨rfl, hrev.2, hrev.1⟩

/-- C1 witness: a benign one-directory chain lands inside the share
directory at the predicted path. -/
theorem c1_witness :
    goodName ("h".data) ∧
    local_path_of (share_directory ("h".data) ("s".data))
        (rpAfter ["d".data]) ("a".data) =
      share_directory ("h".data) ("s".data) ++
        '/' :: sepJoin (["d".data] ++ ["a".data]) :=
  ⟨by decide,
    (c1_amended_sandbox ("h".data) ("s".data) ("t".data) ["d".data] []
      ("a".data) ("b".data) (by decide) (by decide) (by decide) (by decide)
      (by decide) (by decide) (by decide)).1⟩

end SmbSpider
